import Mathlib

/-!
Verification development for the `sqlime` OPFS picker
(`src/js/components/opfs-picker.js`, `src/js/opfs.js`).

JavaScript strings are embedded as `List Char`; JS `null`/`undefined`
string inputs are embedded as the empty list (both are falsy in the JS
code, which only ever tests them with `!path`-style checks before use).
Fallible DOM-free fragments that can throw (a `.children` access on a
`null` lookup result) are embedded as `Option`-returning functions,
`none` marking the thrown exception.
-/

set_option autoImplicit false

namespace Sqlime

/-- JS strings, embedded as lists of characters. -/
abbrev JStr := List Char

/-- Second statement of `OpfsPicker.normalize` (opfs-picker.js line 35):
`if (path.length > 1 && path.endsWith("/")) path = path.slice(0, -1);`. -/
def normalizeTail (p : JStr) : JStr :=
  if p.length > 1 ∧ p.getLast? = some '/' then p.dropLast else p

/-- Embedding of `OpfsPicker.normalize` (opfs-picker.js lines 32-37):
`if (!path) return "/"; if (!path.startsWith("/")) path = "/" + path;
if (path.length > 1 && path.endsWith("/")) path = path.slice(0, -1);`. -/
def normalize (path : JStr) : JStr :=
  if path = [] then ['/']
  else normalizeTail (if path.head? = some '/' then path else '/' :: path)

/-- Embedding of JS `String.prototype.lastIndexOf` for a single character:
index of the last occurrence, `-1` when absent. -/
def jsLastIndexOf (c : Char) : JStr → Int
  | [] => -1
  | a :: rest =>
    let r := jsLastIndexOf c rest
    if r ≥ 0 then r + 1 else if a = c then 0 else -1

/-- Embedding of `OpfsPicker.parentOf` (lines 46-52):
normalize, return `null` for `"/"`, else cut at the last `"/"`
(`substring(0, idx)`), with index `0` mapping to `"/"`.  (The JS
reassigns `path = this.normalize(path)`; here the normalized string is
written out at each use.) -/
def parentOf (path : JStr) : Option JStr :=
  if normalize path = ['/'] then none
  else if jsLastIndexOf '/' (normalize path) = 0 then some ['/']
  else some ((normalize path).take (jsLastIndexOf '/' (normalize path)).toNat)

/-- Accumulator pass for `path.split("/").filter(Boolean)`: maximal
nonempty runs of non-`'/'` characters, in order. `cur` holds the current
run reversed. -/
def segmentsAux : JStr → JStr → List JStr
  | cur, [] => if cur = [] then [] else [cur.reverse]
  | cur, c :: rest =>
    if c = '/' then
      if cur = [] then segmentsAux [] rest else cur.reverse :: segmentsAux [] rest
    else segmentsAux (c :: cur) rest

/-- Embedding of `path.split("/").filter(Boolean)` (used by `findNode`,
`jumpToPath` and breadcrumb construction). -/
def segments (s : JStr) : List JStr :=
  segmentsAux [] s

/-- Embedding of `parts.join("/")` on segment lists. -/
def joinSlash : List JStr → JStr
  | [] => []
  | [x] => x
  | x :: y :: rest => x ++ '/' :: joinSlash (y :: rest)

/-- The canonical absolute path spelled from a segment list:
`"/" + segs.join("/")`.  Tree node paths produced by `dirtree`
(opfs.js lines 12-27) have exactly this shape. -/
def canonicalPath (segs : List JStr) : JStr :=
  '/' :: joinSlash segs

/-- A well-formed path segment: nonempty and slash-free (what
`split("/").filter(Boolean)` produces, and what OPFS entry names are). -/
def goodSeg (s : JStr) : Prop := s ≠ [] ∧ '/' ∉ s

/-- All segments of a list are well-formed. -/
def goodSegs (l : List JStr) : Prop := ∀ s ∈ l, goodSeg s

instance (s : JStr) : Decidable (goodSeg s) := by unfold goodSeg; infer_instance

instance (l : List JStr) : Decidable (goodSegs l) := by
  unfold goodSegs; infer_instance

/-! ## Tree snapshot

`dirtree` (opfs.js lines 1-42) builds duck-typed nodes
`{name, type: "directory", path, children}` for directories and
`{name, type: "file", path}` for files; file nodes carry no `children`
field.  The tagged union below embeds exactly that. -/

/-- A snapshot tree node, as built by `dirtree`. -/
inductive TreeNode where
  | file (name : JStr) (path : JStr)
  | dir (name : JStr) (path : JStr) (children : List TreeNode)

mutual

/-- Boolean equality on tree nodes (structural). -/
def beqNode : TreeNode → TreeNode → Bool
  | .file n p, .file n' p' => n = n' && p = p'
  | .dir n p cs, .dir n' p' cs' => n = n' && p = p' && beqNodes cs cs'
  | _, _ => false

/-- Boolean equality on lists of tree nodes. -/
def beqNodes : List TreeNode → List TreeNode → Bool
  | [], [] => true
  | a :: as, b :: bs => beqNode a b && beqNodes as bs
  | _, _ => false

end

mutual

theorem beqNode_iff : ∀ a b : TreeNode, beqNode a b = true ↔ a = b
  | .file _ _, .file _ _ => by simp [beqNode]
  | .file _ _, .dir _ _ _ => by simp [beqNode]
  | .dir _ _ _, .file _ _ => by simp [beqNode]
  | .dir n p cs, .dir n' p' cs' => by
    simp [beqNode, beqNodes_iff cs cs', and_assoc]

theorem beqNodes_iff : ∀ as bs : List TreeNode, beqNodes as bs = true ↔ as = bs
  | [], [] => by simp [beqNodes]
  | [], _ :: _ => by simp [beqNodes]
  | _ :: _, [] => by simp [beqNodes]
  | a :: as, b :: bs => by
    simp [beqNodes, beqNode_iff a b, beqNodes_iff as bs]

end

instance : DecidableEq TreeNode := fun a b =>
  decidable_of_iff _ (beqNode_iff a b)

namespace TreeNode

/-- The `.name` field. -/
def name : TreeNode → JStr
  | .file n _ => n
  | .dir n _ _ => n

/-- The `.path` field. -/
def path : TreeNode → JStr
  | .file _ p => p
  | .dir _ p _ => p

/-- The `.children` field: `undefined` (here `none`) on a file node. -/
def children? : TreeNode → Option (List TreeNode)
  | .file _ _ => none
  | .dir _ _ cs => some cs

/-- JS `node.children || []`: the children list, `[]` for a file node
(whose `children` is `undefined`, hence falsy). -/
def childrenOrEmpty (n : TreeNode) : List TreeNode :=
  (n.children?).getD []

/-- Whether the node's `type` field is `"directory"`. -/
def isDir : TreeNode → Bool
  | .file _ _ => false
  | .dir _ _ _ => true

end TreeNode

/-- JS `node?.children || []` on the result of a lookup that may be null. -/
def optChildren : Option TreeNode → List TreeNode
  | none => []
  | some n => n.childrenOrEmpty

/-- The segment-walking loop of `findNode` (lines 77-81):
`for (const p of parts) { if (!cur.children) return null;
cur = cur.children.find(c => c.name === p); if (!cur) return null; }`. -/
def walkSegs : TreeNode → List JStr → Option TreeNode
  | cur, [] => some cur
  | cur, p :: ps =>
    match cur.children? with
    | none => none
    | some cs =>
      match cs.find? (fun c => c.name = p) with
      | none => none
      | some c => walkSegs c ps

/-- Embedding of `OpfsPicker.findNode` (lines 70-83): normalize, return
the whole tree for `"/"`, else walk the slash-split segments.  (The JS
`if (!this.fullTree) return null` guard is dropped: the tree argument is
always a present node here.) -/
def findNode (tree : TreeNode) (path : JStr) : Option TreeNode :=
  if normalize path = ['/'] then some tree
  else walkSegs tree (segments (normalize path))

mutual

/-- Every directory node in the tree has a nonempty children list
("every listed directory is non-empty"). -/
def allDirsNonempty : TreeNode → Bool
  | .file _ _ => true
  | .dir _ _ cs => !cs.isEmpty && allDirsNonemptyList cs

/-- `allDirsNonempty` on each element of a list. -/
def allDirsNonemptyList : List TreeNode → Bool
  | [] => true
  | c :: cs => allDirsNonempty c && allDirsNonemptyList cs

end

mutual

/-- Well-formedness of a node sitting at segment chain `segs` (so its
canonical absolute path is `canonicalPath segs`), as guaranteed by
`dirtree`: the `path` field is the canonical path of the chain, the
`name` field is the chain's last segment (`""` at the root), every
segment is nonempty and slash-free, and children sit at the extended
chain under their own names. -/
def wfNode : List JStr → TreeNode → Bool
  | segs, .file n p =>
    decide (p = canonicalPath segs) && decide (segs.getLast? = some n) && decide (goodSeg n)
  | segs, .dir n p cs =>
    decide (p = canonicalPath segs) &&
    (decide (segs = [] ∧ n = []) || (decide (segs.getLast? = some n) && decide (goodSeg n))) &&
    wfChildren segs cs

/-- `wfNode` for each child, at the chain extended by the child's name. -/
def wfChildren : List JStr → List TreeNode → Bool
  | _, [] => true
  | segs, c :: cs => wfNode (segs ++ [c.name]) c && wfChildren segs cs

end

mutual

/-- The snapshot invariant that no directory lists two entries with the
same `name` — guaranteed by `dirtree`, since the sandboxed filesystem
cannot hold two entries with the same name in one directory. -/
def nodupNames : TreeNode → Bool
  | .file _ _ => true
  | .dir _ _ cs => decide ((cs.map TreeNode.name).Nodup) && nodupNamesList cs

/-- `nodupNames` on each element of a list. -/
def nodupNamesList : List TreeNode → Bool
  | [] => true
  | c :: cs => nodupNames c && nodupNamesList cs

end

/-- A path (given as its segment chain) is PRESENT in the snapshot: the
node `n` is reached from `t` by following one child edge per segment,
each edge labelled with the child's own `name`.  `Reaches t segs n`
says the snapshot actually contains `n` at chain `segs`; the chain of a
node's `.path` is exactly such a chain. -/
inductive Reaches : TreeNode → List JStr → TreeNode → Prop where
  | refl (t : TreeNode) : Reaches t [] t
  | step {t : TreeNode} {cs : List TreeNode} {c : TreeNode} {segs : List JStr}
      {n : TreeNode} (hcs : t.children? = some cs) (hmem : c ∈ cs)
      (hrest : Reaches c segs n) : Reaches t (c.name :: segs) n

/-! ## Column window -/

/-- The contents of the three picker columns; `renderColumn("colN", items)`
is embedded as setting field `colN`. -/
structure Columns where
  col1 : List TreeNode
  col2 : List TreeNode
  col3 : List TreeNode
  deriving DecidableEq

/-- The JS local `visible` of `jumpToPath` (line 324):
`parts.length <= 3 ? parts : parts.slice(-3)`. -/
def jumpVisible (parts : List JStr) : List JStr :=
  if parts.length ≤ 3 then parts else parts.drop (parts.length - 3)

/-- The JS local `parentPath` of `jumpToPath` (lines 326-331): `"/"`,
overwritten for deep paths by `"/" + parts.slice(0, parts.length -
visible.length).join("/")` (with a dead `""`-to-`"/"` patch-up). -/
def jumpParentPath (parts : List JStr) : JStr :=
  if parts.length > 3 then
    (if '/' :: joinSlash (parts.take (parts.length - (jumpVisible parts).length)) = []
     then ['/']
     else '/' :: joinSlash (parts.take (parts.length - (jumpVisible parts).length)))
  else ['/']

/-- Column contents computed by `jumpToPath` (lines 320-358) for an
already-normalized `full` path (the method normalizes once at entry;
that happens in `jumpState` below). -/
def jumpCols (tree : TreeNode) (full : JStr) : Columns :=
  { col1 := optChildren (findNode tree (jumpParentPath (segments full)))
    col2 :=
      if (jumpVisible (segments full)).length ≥ 2 then
        optChildren (findNode tree ('/' :: joinSlash ((jumpVisible (segments full)).take 2)))
      else []
    col3 :=
      if (jumpVisible (segments full)).length ≥ 3 then
        optChildren (findNode tree ('/' :: joinSlash ((jumpVisible (segments full)).take 3)))
      else [] }

/-- Column contents computed by `slideLeft` (lines 277-292), with the JS
locals `parent = parentOf(path) || "/"` and `grandparent =
parentOf(parent) || "/"` written out inline.  The JS accesses
`grandparentNode.children`, `parentNode.children` and `node.children`
without optional chaining, so a `null` lookup throws; `none` embeds that
thrown exception (the handler then aborts before any selection/history
update). -/
def slideLeftCols (tree : TreeNode) (path : JStr) : Option Columns :=
  match findNode tree ((parentOf ((parentOf (normalize path)).getD ['/'])).getD ['/']),
      findNode tree ((parentOf (normalize path)).getD ['/']),
      findNode tree (normalize path) with
  | some g, some p, some n =>
    some ⟨g.childrenOrEmpty, p.childrenOrEmpty, n.childrenOrEmpty⟩
  | _, _, _ => none

/-- Column contents computed by `slideRight` (lines 294-314), locals
inlined as in `slideLeftCols`.  In the root-parent branch
`parentNode?.children` and `node?.children` are optional-chained but
`node.children` is not; in the other branch `grandparentNode.children`
and `parentNode.children` are bare accesses.  `none` embeds the thrown
exception. -/
def slideRightCols (tree : TreeNode) (path : JStr) : Option Columns :=
  if (parentOf (normalize path)).getD ['/'] = ['/'] then
    match findNode tree (normalize path) with
    | none => none
    | some n =>
      some ⟨optChildren (findNode tree ((parentOf (normalize path)).getD ['/'])),
        n.childrenOrEmpty, []⟩
  else
    match findNode tree ((parentOf ((parentOf (normalize path)).getD ['/'])).getD ['/']),
        findNode tree ((parentOf (normalize path)).getD ['/']) with
    | some g, some p =>
      some ⟨g.childrenOrEmpty, p.childrenOrEmpty,
        optChildren (findNode tree (normalize path))⟩
    | _, _ => none

/-- Column contents computed by `navigateFromBreadcrumb` (lines 208-234)
for an already-normalized `path`, locals inlined.  When the target node
is missing only `col3` is re-rendered (to empty), the other two columns
keep their old contents; note that the `grandparent` there is taken
without a `|| "/"` default, so a `null` flows into `findNode`, which
normalizes it to `"/"` (`null` embedded as `[]`). -/
def breadcrumbCols (tree : TreeNode) (old : Columns) (path : JStr) : Option Columns :=
  if (parentOf path).getD ['/'] = ['/'] then
    some ⟨optChildren (findNode tree ((parentOf path).getD ['/'])),
      optChildren (findNode tree path), []⟩
  else
    match findNode tree path with
    | some n =>
      match findNode tree ((parentOf ((parentOf path).getD ['/'])).getD []),
          findNode tree ((parentOf path).getD ['/']) with
      | some g, some p =>
        some ⟨g.childrenOrEmpty, p.childrenOrEmpty, n.childrenOrEmpty⟩
      | _, _ => none
    | none => some { old with col3 := [] }

/-! ## Navigation state machine -/

/-- The navigation state owned by the widget (constructor lines 8-12):
`selectedPath`, the three columns, and the back history.  (The unused
`pathParts` field and all DOM state are not part of the model.) -/
structure NavState where
  selectedPath : Option JStr
  cols : Columns
  history : List JStr
  historyIndex : Int
  deriving DecidableEq

/-- The state right after the constructor: no selection, empty columns,
empty history, `historyIndex = -1`. -/
def initState : NavState :=
  ⟨none, ⟨[], [], []⟩, [], -1⟩

/-- Signals dispatched to the host. -/
inductive UiEvent where
  | openFile (fullpath : JStr)
  | opfsFile (filePath : JStr)
  | closeEvt
  deriving DecidableEq

/-- Which rendered column a row double-click came from. -/
inductive ColId where
  | col1
  | col2
  | col3
  deriving DecidableEq

/-- The discrete user actions wired up in `render()` and `renderColumn`. -/
inductive UAction where
  | singleClick (item : TreeNode)
  | dblClick (col : ColId) (item : TreeNode)
  | breadcrumbJump (path : JStr)
  | upBtn
  | backBtn
  | openBtn
  | closeBtn
  | pathSubmit (text : JStr)
  deriving DecidableEq

/-- JS `list.slice(0, e)` with a possibly negative end index. -/
def jsSlice0 (l : List JStr) (e : Int) : List JStr :=
  l.take (if e < 0 then ((l.length : Int) + e).toNat else e.toNat)

/-- Embedding of `pushHistory` (lines 89-95): truncate forward entries
when not at the tail, append, point the index at the new last entry. -/
def pushHist (s : NavState) (path : JStr) : NavState :=
  let h :=
    if s.historyIndex < (s.history.length : Int) - 1 then
      jsSlice0 s.history (s.historyIndex + 1)
    else s.history
  { s with history := h ++ [path], historyIndex := ((h ++ [path]).length : Int) - 1 }

/-- Embedding of `jumpToPath`'s state effect (lines 320-358): normalize
once, recompute the three columns, set `selectedPath`, optionally push. -/
def jumpState (tree : TreeNode) (s : NavState) (full : JStr) (push : Bool) : NavState :=
  let full := normalize full
  let s1 := { s with cols := jumpCols tree full, selectedPath := some full }
  if push then pushHist s1 full else s1

/-- Embedding of `back()` (lines 97-102): no-op when `historyIndex <= 0`,
else decrement and jump (without pushing) to the entry now pointed at;
an out-of-range read yields JS `undefined`, embedded as `[]`. -/
def backStep (tree : TreeNode) (s : NavState) : NavState :=
  if s.historyIndex ≤ 0 then s
  else
    let i := s.historyIndex - 1
    let prev := (s.history.get? i.toNat).getD []
    jumpState tree { s with historyIndex := i } prev false

/-- JS `this.selectedPath || "/"` (falsy `null` or `""` become `"/"`). -/
def selOrRoot (s : NavState) : JStr :=
  match s.selectedPath with
  | none => ['/']
  | some p => if p = [] then ['/'] else p

/-- JS `String.prototype.trim`. -/
def jsTrim (s : JStr) : JStr :=
  ((s.dropWhile Char.isWhitespace).reverse.dropWhile Char.isWhitespace).reverse

/-- One user action applied to the navigation state, returning the next
state and the dispatched events; `none` embeds a thrown JS exception
(which in the widget aborts the handler before any selection or history
update). Mirrors `renderColumn`'s row listeners (lines 129-139),
`handleDoubleClickItem` (lines 248-275), `navigateFromBreadcrumb`
(lines 208-242) and the control wiring (lines 467-490). -/
def step (tree : TreeNode) (s : NavState) : UAction → Option (NavState × List UiEvent)
  | .singleClick item => some ({ s with selectedPath := some item.path }, [])
  | .dblClick colId item =>
    let path := normalize item.path
    match item with
    | .file _ _ => some (s, [.openFile path])
    | .dir _ _ _ =>
      match findNode tree path with
      | none => some (s, [])
      | some n =>
        let cols? : Option Columns :=
          match colId with
          | .col1 => slideRightCols tree path
          | .col2 => some { s.cols with col3 := n.childrenOrEmpty }
          | .col3 => slideLeftCols tree path
        match cols? with
        | none => none
        | some cols =>
          some (pushHist { s with cols := cols, selectedPath := some path } path, [])
  | .breadcrumbJump p =>
    let path := normalize p
    match breadcrumbCols tree s.cols path with
    | none => none
    | some cols =>
      some (pushHist { s with cols := cols, selectedPath := some path } path, [])
  | .upBtn =>
    match parentOf (selOrRoot s) with
    | none => some (s, [])
    | some parent => some (jumpState tree s parent true, [])
  | .backBtn => some (backStep tree s, [])
  | .openBtn =>
    match s.selectedPath with
    | none => some (s, [])
    | some p => if p = [] then some (s, []) else some (s, [.opfsFile p])
  | .closeBtn => some (s, [.closeEvt])
  | .pathSubmit text =>
    let v := jsTrim text
    if v = [] then some (s, []) else some (jumpState tree s v true, [])

/-! ## Lemmas about `normalize` -/

theorem getLast?_cons_of_ne_nil {a : Char} {l : JStr} (h : l ≠ []) :
    (a :: l).getLast? = l.getLast? := by
  cases l with
  | nil => exact absurd rfl h
  | cons b r => simp

/-- The slash-prefixing step always yields a string of the form `'/' :: rest`. -/
theorem slashPrefix_shape (s : JStr) (hs : s ≠ []) :
    ∃ rest, (if s.head? = some '/' then s else '/' :: s) = '/' :: rest := by
  by_cases h : s.head? = some '/'
  · rw [if_pos h]
    cases s with
    | nil => exact absurd rfl hs
    | cons a t =>
      simp only [List.head?_cons, Option.some.injEq] at h
      exact ⟨t, by rw [h]⟩
  · rw [if_neg h]
    exact ⟨s, rfl⟩

theorem normalize_cons_eq (s : JStr) (hs : s ≠ []) {rest : JStr}
    (hp : (if s.head? = some '/' then s else '/' :: s) = '/' :: rest) :
    normalize s = normalizeTail ('/' :: rest) := by
  unfold normalize
  rw [if_neg hs, hp]

theorem normalize_ne_nil (s : JStr) : normalize s ≠ [] := by
  by_cases hs : s = []
  · subst hs; simp [normalize]
  · obtain ⟨rest, hp⟩ := slashPrefix_shape s hs
    rw [normalize_cons_eq s hs hp]
    unfold normalizeTail
    split
    · next hc =>
      rcases hc with ⟨hlen, -⟩
      cases rest with
      | nil => simp at hlen
      | cons b r => simp
    · simp

theorem head?_normalize (s : JStr) : (normalize s).head? = some '/' := by
  by_cases hs : s = []
  · subst hs; rfl
  · obtain ⟨rest, hp⟩ := slashPrefix_shape s hs
    rw [normalize_cons_eq s hs hp]
    unfold normalizeTail
    split
    · next hc =>
      rcases hc with ⟨hlen, -⟩
      cases rest with
      | nil => simp at hlen
      | cons b r => simp [List.dropLast]
    · rfl

/-- A string of the shape `'/' :: rest` that does not satisfy the
strip condition is a `normalize` fixed point. -/
theorem normalize_fixed_of_cons {rest : JStr}
    (hcond : ¬(('/' :: rest).length > 1 ∧ ('/' :: rest).getLast? = some '/')) :
    normalize ('/' :: rest) = '/' :: rest := by
  have h := @normalize_cons_eq ('/' :: rest) (by simp) rest (by simp)
  rw [h]
  unfold normalizeTail
  rw [if_neg hcond]

/-- If a string does not end in two slashes, one pass of `normalize`
reaches a fixed point. -/
theorem normalize_normalize (s : JStr) (h : ¬ ['/', '/'] <:+ s) :
    normalize (normalize s) = normalize s := by
  by_cases hs : s = []
  · subst hs; rfl
  · obtain ⟨rest, hp⟩ := slashPrefix_shape s hs
    have hp1nosuffix : ¬ ['/', '/'] <:+ ('/' :: rest) := by
      by_cases hh : s.head? = some '/'
      · rw [if_pos hh] at hp
        exact hp ▸ h
      · rw [if_neg hh] at hp
        have hsr : s = rest := by injection hp
        intro hsuf
        rcases List.suffix_cons_iff.1 hsuf with hcase | hcase
        · have hr : rest = ['/'] := by
            injection hcase with h1 h2
            exact h2.symm
          rw [hsr, hr] at hh
          simp at hh
        · exact h (hsr ▸ hcase)
    rw [normalize_cons_eq s hs hp]
    unfold normalizeTail
    split
    · next hc =>
      -- one trailing slash was stripped
      rcases hc with ⟨hlen, hlast⟩
      cases rest with
      | nil => simp at hlen
      | cons b r =>
        have hlast' : (b :: r).getLast? = some '/' := by
          rwa [getLast?_cons_of_ne_nil (by simp)] at hlast
        rw [show ('/' :: b :: r).dropLast = '/' :: (b :: r).dropLast from rfl]
        apply normalize_fixed_of_cons
        rintro ⟨hlen2, hlast2⟩
        have hdne : (b :: r).dropLast ≠ [] := by
          intro h0
          rw [h0] at hlen2
          simp at hlen2
        rw [getLast?_cons_of_ne_nil hdne] at hlast2
        have hdecomp1 : (b :: r).dropLast ++ ['/'] = b :: r :=
          List.dropLast_append_getLast? '/' hlast'
        have hdecomp2 : (b :: r).dropLast.dropLast ++ ['/'] = (b :: r).dropLast :=
          List.dropLast_append_getLast? '/' hlast2
        apply hp1nosuffix
        refine ⟨'/' :: (b :: r).dropLast.dropLast, ?_⟩
        have : ('/' :: (b :: r).dropLast.dropLast) ++ ['/', '/'] =
            '/' :: (((b :: r).dropLast.dropLast ++ ['/']) ++ ['/']) := by simp
        rw [this, hdecomp2, hdecomp1]
    · next hc => exact normalize_fixed_of_cons hc

/-! ## Lemmas about canonical paths and `segments` -/

theorem joinSlash_two (x y : JStr) (l : List JStr) :
    joinSlash (x :: y :: l) = x ++ '/' :: joinSlash (y :: l) := rfl

theorem joinSlash_ne_nil {l : List JStr} (hg : goodSegs l) (hl : l ≠ []) :
    joinSlash l ≠ [] := by
  match l with
  | [x] =>
    have := (hg x (by simp)).1
    simpa [joinSlash]
  | x :: y :: r =>
    simp [joinSlash_two]

theorem getLast?_joinSlash_ne_slash {l : List JStr} (hg : goodSegs l) (hl : l ≠ []) :
    (joinSlash l).getLast? ≠ some '/' := by
  induction l with
  | nil => exact absurd rfl hl
  | cons x r ih =>
    match r with
    | [] =>
      intro hlast
      have hmem : '/' ∈ x := List.mem_of_getLast?_eq_some hlast
      exact (hg x (by simp)).2 hmem
    | y :: r' =>
      have hne : joinSlash (y :: r') ≠ [] :=
        joinSlash_ne_nil (fun s hs => hg s (by simp [hs])) (by simp)
      have ha := ih (fun s hs => hg s (by simp [hs])) (by simp)
      rw [joinSlash_two, List.getLast?_append]
      rw [getLast?_cons_of_ne_nil hne]
      cases hj : (joinSlash (y :: r')).getLast? with
      | none => exact absurd (List.getLast?_eq_none_iff.1 hj) hne
      | some a =>
        rw [hj] at ha
        simpa using ha

theorem canonicalPath_ne_nil (segs : List JStr) : canonicalPath segs ≠ [] := by
  simp [canonicalPath]

theorem goodSegs_dropLast {l : List JStr} (hg : goodSegs l) : goodSegs l.dropLast :=
  fun s hs => hg s (List.dropLast_subset l hs)

theorem canonicalPath_eq_root {segs : List JStr} (hg : goodSegs segs) :
    canonicalPath segs = ['/'] ↔ segs = [] := by
  constructor
  · intro h
    by_contra hne
    have := joinSlash_ne_nil hg hne
    unfold canonicalPath at h
    simp at h
    exact this h
  · rintro rfl; rfl

theorem joinSlash_concat : ∀ {l : List JStr} (x : JStr), l ≠ [] →
    joinSlash (l ++ [x]) = joinSlash l ++ '/' :: x
  | [], _, h => absurd rfl h
  | [y], x, _ => by simp [joinSlash_two, joinSlash]
  | y :: z :: r, x, _ => by
    show joinSlash (y :: ((z :: r) ++ [x])) = _
    rw [show (z :: r) ++ [x] = z :: (r ++ [x]) from rfl]
    rw [joinSlash_two, joinSlash_two]
    rw [show joinSlash (z :: (r ++ [x])) = joinSlash ((z :: r) ++ [x]) from rfl]
    rw [joinSlash_concat x (by simp)]
    simp

theorem segmentsAux_nil (cur : JStr) :
    segmentsAux cur [] = if cur = [] then [] else [cur.reverse] := by
  simp only [segmentsAux]

theorem segmentsAux_cons (cur : JStr) (c : Char) (rest : JStr) :
    segmentsAux cur (c :: rest) =
      if c = '/' then
        (if cur = [] then segmentsAux [] rest else cur.reverse :: segmentsAux [] rest)
      else segmentsAux (c :: cur) rest := by
  simp only [segmentsAux]

theorem segmentsAux_no_slash {x : JStr} (hx : '/' ∉ x) :
    ∀ (cur t : JStr), segmentsAux cur (x ++ t) = segmentsAux (x.reverse ++ cur) t := by
  induction x with
  | nil => intro cur t; simp
  | cons c cs ih =>
    intro cur t
    have hc : c ≠ '/' := fun h => hx (by simp [h])
    have hcs : '/' ∉ cs := fun h => hx (by simp [h])
    show segmentsAux cur (c :: (cs ++ t)) = _
    rw [segmentsAux_cons, if_neg hc, ih hcs (c :: cur) t]
    simp

theorem segmentsJoin : ∀ {l : List JStr}, goodSegs l → segmentsAux [] (joinSlash l) = l
  | [], _ => rfl
  | [x], hg => by
    have hx := hg x (by simp)
    have h1 : joinSlash [x] = x ++ [] := by simp [joinSlash]
    rw [h1, segmentsAux_no_slash hx.2, segmentsAux_nil]
    rw [if_neg (by simpa using hx.1)]
    simp
  | x :: y :: r, hg => by
    have hx := hg x (by simp)
    rw [joinSlash_two, segmentsAux_no_slash hx.2, segmentsAux_cons]
    rw [if_pos rfl, if_neg (by simpa using hx.1)]
    rw [segmentsJoin (fun s hs => hg s (by simp [hs]))]
    simp

theorem segments_canonical {segs : List JStr} (hg : goodSegs segs) :
    segments (canonicalPath segs) = segs := by
  show segmentsAux [] ('/' :: joinSlash segs) = segs
  rw [segmentsAux_cons, if_pos rfl, if_pos rfl]
  exact segmentsJoin hg

theorem normalize_canonical {segs : List JStr} (hg : goodSegs segs) :
    normalize (canonicalPath segs) = canonicalPath segs := by
  show normalize ('/' :: joinSlash segs) = '/' :: joinSlash segs
  apply normalize_fixed_of_cons
  rintro ⟨hlen, hlast⟩
  by_cases hsegs : segs = []
  · subst hsegs; simp [joinSlash] at hlen
  · have hne := joinSlash_ne_nil hg hsegs
    rw [getLast?_cons_of_ne_nil hne] at hlast
    exact getLast?_joinSlash_ne_slash hg hsegs hlast

/-! ## `findNode` and `parentOf` on canonical paths -/

theorem findNode_canonical (tree : TreeNode) {segs : List JStr} (hg : goodSegs segs) :
    findNode tree (canonicalPath segs) = walkSegs tree segs := by
  unfold findNode
  rw [normalize_canonical hg]
  by_cases hsegs : segs = []
  · subst hsegs
    rw [if_pos (show canonicalPath [] = ['/'] from rfl)]
    rfl
  · rw [if_neg (fun h => hsegs ((canonicalPath_eq_root hg).1 h))]
    rw [segments_canonical hg]

theorem jsLastIndexOf_not_mem {c : Char} : ∀ {s : JStr}, c ∉ s → jsLastIndexOf c s = -1
  | [], _ => rfl
  | a :: rest, h => by
    have hrest : c ∉ rest := fun hm => h (by simp [hm])
    have ha : a ≠ c := fun hm => h (by simp [hm])
    rw [show jsLastIndexOf c (a :: rest) =
          (if jsLastIndexOf c rest ≥ 0 then jsLastIndexOf c rest + 1
           else if a = c then 0 else -1) from rfl]
    rw [jsLastIndexOf_not_mem hrest]
    rw [if_neg (by omega), if_neg ha]

theorem jsLastIndexOf_append {x : JStr} (hx : '/' ∉ x) :
    ∀ (a : JStr), jsLastIndexOf '/' (a ++ '/' :: x) = (a.length : Int)
  | [] => by
    rw [show ([] : JStr) ++ '/' :: x = '/' :: x from rfl]
    rw [show jsLastIndexOf '/' ('/' :: x) =
          (if jsLastIndexOf '/' x ≥ 0 then jsLastIndexOf '/' x + 1
           else if ('/' : Char) = '/' then 0 else -1) from rfl]
    rw [jsLastIndexOf_not_mem hx]
    rw [if_neg (by omega), if_pos rfl]
    rfl
  | b :: a' => by
    rw [show (b :: a') ++ '/' :: x = b :: (a' ++ '/' :: x) from rfl]
    rw [show jsLastIndexOf '/' (b :: (a' ++ '/' :: x)) =
          (if jsLastIndexOf '/' (a' ++ '/' :: x) ≥ 0 then
            jsLastIndexOf '/' (a' ++ '/' :: x) + 1
           else if b = '/' then 0 else -1) from rfl]
    rw [jsLastIndexOf_append hx a']
    rw [if_pos (by omega)]
    simp

theorem parentOf_canonical {segs : List JStr} (hg : goodSegs segs) (hne : segs ≠ []) :
    parentOf (canonicalPath segs) = some (canonicalPath segs.dropLast) := by
  obtain ⟨l, x, rfl⟩ : ∃ l x, segs = l ++ [x] :=
    ⟨segs.dropLast, segs.getLast hne, (List.dropLast_append_getLast hne).symm⟩
  have hx : '/' ∉ x := (hg x (by simp)).2
  unfold parentOf
  rw [normalize_canonical hg]
  rw [if_neg (fun h => hne ((canonicalPath_eq_root hg).1 h))]
  by_cases hl : l = []
  · subst hl
    have hjoin : canonicalPath ([] ++ [x]) = [] ++ '/' :: x := by
      simp [canonicalPath, joinSlash]
    rw [hjoin, jsLastIndexOf_append hx []]
    rw [if_pos (show ((([] : JStr).length : Int)) = 0 from rfl)]
    simp [canonicalPath, joinSlash]
  · have hjoin : canonicalPath (l ++ [x]) = ('/' :: joinSlash l) ++ '/' :: x := by
      show '/' :: joinSlash (l ++ [x]) = _
      rw [joinSlash_concat x hl]
      rfl
    rw [hjoin, jsLastIndexOf_append hx ('/' :: joinSlash l)]
    rw [if_neg (by
      show ¬ ((('/' :: joinSlash l).length : Int)) = 0
      simp only [List.length_cons]
      omega)]
    rw [show (((('/' :: joinSlash l).length : Int)).toNat) = ('/' :: joinSlash l).length
          from by simp]
    rw [List.take_left]
    rw [List.dropLast_concat]
    rfl

/-! ## Lemmas about `walkSegs` -/

theorem walkSegs_cons (t : TreeNode) (p : JStr) (ps : List JStr) :
    walkSegs t (p :: ps) =
      match t.children? with
      | none => none
      | some cs =>
        match cs.find? (fun c => c.name = p) with
        | none => none
        | some c => walkSegs c ps := by
  simp only [walkSegs]

theorem walkSegs_append (l₁ : List JStr) (t : TreeNode) (l₂ : List JStr) :
    walkSegs t (l₁ ++ l₂) = (walkSegs t l₁).bind (fun m => walkSegs m l₂) := by
  induction l₁ generalizing t with
  | nil => simp [walkSegs]
  | cons p ps ih =>
    show walkSegs t (p :: (ps ++ l₂)) = _
    rw [walkSegs_cons, walkSegs_cons]
    cases t.children? with
    | none => rfl
    | some cs =>
      dsimp only
      cases cs.find? (fun c => c.name = p) with
      | none => rfl
      | some c => exact ih c

theorem walkSegs_dropLast {t n : TreeNode} {l : List JStr} (hl : l ≠ [])
    (hw : walkSegs t l = some n) : ∃ m, walkSegs t l.dropLast = some m := by
  have hd : l.dropLast ++ [l.getLast hl] = l := List.dropLast_append_getLast hl
  rw [← hd, walkSegs_append] at hw
  cases hm : walkSegs t l.dropLast with
  | none => rw [hm] at hw; simp at hw
  | some m => exact ⟨m, rfl⟩

theorem walkSegs_take {t n : TreeNode} {l : List JStr} (hw : walkSegs t l = some n)
    (j : Nat) : ∃ m, walkSegs t (l.take j) = some m := by
  rw [← List.take_append_drop j l, walkSegs_append] at hw
  cases hm : walkSegs t (l.take j) with
  | none => rw [hm] at hw; simp at hw
  | some m => exact ⟨m, rfl⟩

theorem walkSegs_cons_elim {t n : TreeNode} {p : JStr} {ps : List JStr}
    (hw : walkSegs t (p :: ps) = some n) :
    ∃ cs c, t.children? = some cs ∧ cs.find? (fun c => c.name = p) = some c ∧
      walkSegs c ps = some n := by
  rw [walkSegs_cons] at hw
  cases ht : t.children? with
  | none => rw [ht] at hw; simp at hw
  | some cs =>
    rw [ht] at hw
    dsimp only at hw
    cases hf : cs.find? (fun c => c.name = p) with
    | none => rw [hf] at hw; simp at hw
    | some c =>
      rw [hf] at hw
      exact ⟨cs, c, rfl, hf, hw⟩

theorem childrenOrEmpty_ne_nil_of_walk {t n : TreeNode} {p : JStr} {ps : List JStr}
    (hw : walkSegs t (p :: ps) = some n) : t.childrenOrEmpty ≠ [] := by
  obtain ⟨cs, c, ht, hf, -⟩ := walkSegs_cons_elim hw
  have hmem := List.mem_of_find?_eq_some hf
  have hcs : cs ≠ [] := by rintro rfl; simp at hmem
  simp [TreeNode.childrenOrEmpty, ht, hcs]

theorem band_left {a b : Bool} (h : (a && b) = true) : a = true := by
  simp only [Bool.and_eq_true] at h
  exact h.1

theorem band_right {a b : Bool} (h : (a && b) = true) : b = true := by
  simp only [Bool.and_eq_true] at h
  exact h.2

/-! ## Lemmas about `allDirsNonempty` and `wfNode` -/

theorem allDirsNonemptyList_mem : ∀ {cs : List TreeNode} {c : TreeNode},
    allDirsNonemptyList cs = true → c ∈ cs → allDirsNonempty c = true
  | c0 :: cs', c, h, hm => by
    rw [show allDirsNonemptyList (c0 :: cs') =
          (allDirsNonempty c0 && allDirsNonemptyList cs') from by
        simp only [allDirsNonemptyList]] at h
    rcases List.mem_cons.1 hm with rfl | hm'
    · exact band_left h
    · exact allDirsNonemptyList_mem (band_right h) hm'

theorem allDirsNonempty_walk : ∀ {l : List JStr} {t n : TreeNode},
    allDirsNonempty t = true → walkSegs t l = some n → allDirsNonempty n = true
  | [], t, n, ht, hw => by
    have h : t = n := Option.some.inj hw
    exact h ▸ ht
  | p :: ps, t, n, ht, hw => by
    obtain ⟨cs, c, hcs, hf, hw'⟩ := walkSegs_cons_elim hw
    have hc : allDirsNonempty c = true := by
      cases t with
      | file nm pth => simp [TreeNode.children?] at hcs
      | dir nm pth cs0 =>
        have hcseq : cs0 = cs := by simpa [TreeNode.children?] using hcs
        subst hcseq
        rw [show allDirsNonempty (TreeNode.dir nm pth cs0) =
              (!cs0.isEmpty && allDirsNonemptyList cs0) from by
            simp only [allDirsNonempty]] at ht
        exact allDirsNonemptyList_mem (band_right ht)
          (List.mem_of_find?_eq_some hf)
    exact allDirsNonempty_walk hc hw'

theorem childrenOrEmpty_ne_nil_of_isDir {n : TreeNode} (ha : allDirsNonempty n = true)
    (hd : n.isDir = true) : n.childrenOrEmpty ≠ [] := by
  cases n with
  | file nm p => simp [TreeNode.isDir] at hd
  | dir nm p cs =>
    rw [show allDirsNonempty (TreeNode.dir nm p cs) =
          (!cs.isEmpty && allDirsNonemptyList cs) from by
        simp only [allDirsNonempty]] at ha
    have hne := band_left ha
    simp only [TreeNode.childrenOrEmpty, TreeNode.children?, Option.getD_some]
    simpa using hne

theorem wfChildren_mem : ∀ {segs : List JStr} {cs : List TreeNode} {c : TreeNode},
    wfChildren segs cs = true → c ∈ cs → wfNode (segs ++ [c.name]) c = true
  | segs, c0 :: cs', c, h, hm => by
    rw [show wfChildren segs (c0 :: cs') =
          (wfNode (segs ++ [c0.name]) c0 && wfChildren segs cs') from by
        simp only [wfChildren]] at h
    rcases List.mem_cons.1 hm with rfl | hm'
    · exact band_left h
    · exact wfChildren_mem (band_right h) hm'

theorem wfNode_path {segs : List JStr} {n : TreeNode} (h : wfNode segs n = true) :
    n.path = canonicalPath segs := by
  cases n with
  | file nm p =>
    rw [show wfNode segs (TreeNode.file nm p) =
          (decide (p = canonicalPath segs) && decide (segs.getLast? = some nm) &&
            decide (goodSeg nm)) from by simp only [wfNode]] at h
    simp only [Bool.and_eq_true, decide_eq_true_eq] at h
    exact h.1.1
  | dir nm p cs =>
    rw [show wfNode segs (TreeNode.dir nm p cs) =
          (decide (p = canonicalPath segs) &&
            (decide (segs = [] ∧ nm = []) ||
              (decide (segs.getLast? = some nm) && decide (goodSeg nm))) &&
            wfChildren segs cs) from by simp only [wfNode]] at h
    simp only [Bool.and_eq_true, decide_eq_true_eq] at h
    exact h.1.1

theorem wf_walk : ∀ {rest : List JStr} {segs0 : List JStr} {t n : TreeNode},
    wfNode segs0 t = true → walkSegs t rest = some n →
      wfNode (segs0 ++ rest) n = true
  | [], segs0, t, n, hwf, hw => by
    have h : t = n := Option.some.inj hw
    subst h
    rw [List.append_nil]
    exact hwf
  | p :: ps, segs0, t, n, hwf, hw => by
    obtain ⟨cs, c, hcs, hf, hw'⟩ := walkSegs_cons_elim hw
    cases t with
    | file nm pth => simp [TreeNode.children?] at hcs
    | dir nm pth cs0 =>
      have hcseq : cs0 = cs := by simpa [TreeNode.children?] using hcs
      subst hcseq
      rw [show wfNode segs0 (TreeNode.dir nm pth cs0) =
            (decide (pth = canonicalPath segs0) &&
              (decide (segs0 = [] ∧ nm = []) ||
                (decide (segs0.getLast? = some nm) && decide (goodSeg nm))) &&
              wfChildren segs0 cs0) from by simp only [wfNode]] at hwf
    -- extract the children clause
      have hwc : wfChildren segs0 cs0 = true := band_right hwf
      have hmem := List.mem_of_find?_eq_some hf
      have hname : c.name = p := by
        have := List.find?_some hf
        simpa using this
      have hwfc := wfChildren_mem hwc hmem
      rw [hname] at hwfc
      have hrec := wf_walk hwfc hw'
      rw [List.append_assoc] at hrec
      exact hrec

/-! ## A concrete snapshot: the chain `/a/b/c` with one file `f` in `c`

Used to evaluate the model at concrete inputs. -/

/-- The file `/a/b/c/f`. -/
def fLeaf : TreeNode := .file ['f'] ['/', 'a', '/', 'b', '/', 'c', '/', 'f']

/-- The directory `/a/b/c`, containing only `fLeaf`. -/
def cNode : TreeNode := .dir ['c'] ['/', 'a', '/', 'b', '/', 'c'] [fLeaf]

/-- The directory `/a/b`, containing only `cNode`. -/
def bNode : TreeNode := .dir ['b'] ['/', 'a', '/', 'b'] [cNode]

/-- The directory `/a`, containing only `bNode`. -/
def aNode : TreeNode := .dir ['a'] ['/', 'a'] [bNode]

/-- The snapshot root, containing only `aNode`. -/
def chainTree : TreeNode := .dir [] ['/'] [aNode]

/-! ## Claim theorems -/

/-- C4, counterexample: `normalize` is not idempotent as claimed; on the
input `"abc//"` one pass yields `"/abc/"` but a second pass yields
`"/abc"`, because line 35 strips only a single trailing slash. -/
theorem normalize_not_idempotent :
    normalize (normalize ['a', 'b', 'c', '/', '/']) ≠ normalize ['a', 'b', 'c', '/', '/'] := by
  decide

/-- C4 (amended): `normalize` is total, maps the empty (and missing,
embedded as empty) input to `"/"`, and is idempotent on every string
that does not end in two slashes `"//"`. -/
theorem normalize_total_idempotent (s : JStr) (h : ¬ ['/', '/'] <:+ s) :
    normalize [] = ['/'] ∧ normalize (normalize s) = normalize s :=
  ⟨rfl, normalize_normalize s h⟩

theorem normalize_total_idempotent_witness :
    normalize [] = ['/'] ∧
      normalize (normalize ['a', 'b', 'c', '/']) = normalize ['a', 'b', 'c', '/'] :=
  normalize_total_idempotent ['a', 'b', 'c', '/'] (by decide)

/-- C5: starting from the empty history, after `push a; push b; back()`
the displayed entry (`history[historyIndex]`, also mirrored into
`selectedPath`) is `a`; after then `push c`, the forward entry `b` has
been truncated away, and another `back()` again displays `a`. -/
theorem history_truncate_on_push (tree : TreeNode) (a b c : JStr) :
    ((backStep tree (pushHist (pushHist initState a) b)).history = [a, b] ∧
      (backStep tree (pushHist (pushHist initState a) b)).historyIndex = 0 ∧
      ((backStep tree (pushHist (pushHist initState a) b)).history.get?
        (backStep tree (pushHist (pushHist initState a) b)).historyIndex.toNat) = some a ∧
      (backStep tree (pushHist (pushHist initState a) b)).selectedPath =
        some (normalize a)) ∧
    ((backStep tree (pushHist (backStep tree (pushHist (pushHist initState a) b)) c)).history
        = [a, c] ∧
      ((backStep tree (pushHist (backStep tree (pushHist (pushHist initState a) b)) c)).history.get?
        (backStep tree (pushHist (backStep tree (pushHist (pushHist initState a) b)) c)).historyIndex.toNat)
        = some a) := by
  have hab : backStep tree (pushHist (pushHist initState a) b) =
      ⟨some (normalize a), jumpCols tree (normalize a), [a, b], 0⟩ := rfl
  have hpush : pushHist (⟨some (normalize a), jumpCols tree (normalize a), [a, b], 0⟩ :
      NavState) c =
      ⟨some (normalize a), jumpCols tree (normalize a), [a, c], 1⟩ := rfl
  have hback2 : backStep tree (⟨some (normalize a), jumpCols tree (normalize a),
      [a, c], 1⟩ : NavState) =
      ⟨some (normalize a), jumpCols tree (normalize a), [a, c], 0⟩ := rfl
  rw [hab, hpush, hback2]
  exact ⟨⟨rfl, rfl, rfl, rfl⟩, ⟨rfl, rfl⟩⟩

theorem nodupNamesList_mem : ∀ {cs : List TreeNode} {c : TreeNode},
    nodupNamesList cs = true → c ∈ cs → nodupNames c = true
  | c0 :: cs', c, h, hm => by
    rw [show nodupNamesList (c0 :: cs') = (nodupNames c0 && nodupNamesList cs') from by
        simp only [nodupNamesList]] at h
    rcases List.mem_cons.1 hm with rfl | hm'
    · exact band_left h
    · exact nodupNamesList_mem (band_right h) hm'

/-- With no duplicate names among siblings, `children.find` by a
member's name returns exactly that member. -/
theorem find?_name_of_nodup : ∀ {cs : List TreeNode} {c : TreeNode},
    (cs.map TreeNode.name).Nodup → c ∈ cs →
    cs.find? (fun x => x.name = c.name) = some c
  | c0 :: cs', c, hnd, hmem => by
    have hnd' : c0.name ∉ cs'.map TreeNode.name ∧ (cs'.map TreeNode.name).Nodup :=
      List.nodup_cons.1 (by simpa using hnd)
    rcases List.mem_cons.1 hmem with rfl | hmem'
    · rw [List.find?_cons_of_pos]
      simp
    · have hnames : ¬ (c0.name = c.name) := by
        intro heq
        exact hnd'.1 (heq ▸ List.mem_map_of_mem TreeNode.name hmem')
      rw [List.find?_cons_of_neg _ (by simpa using hnames)]
      exact find?_name_of_nodup hnd'.2 hmem'

/-- On a well-formed node, a non-root chain ends in the node's own
name, which is a good segment. -/
theorem wfNode_name_good {segs : List JStr} {c : TreeNode}
    (h : wfNode segs c = true) (hne : segs ≠ []) :
    segs.getLast? = some c.name ∧ goodSeg c.name := by
  cases c with
  | file nm p =>
    rw [show wfNode segs (TreeNode.file nm p) =
          (decide (p = canonicalPath segs) && decide (segs.getLast? = some nm) &&
            decide (goodSeg nm)) from by simp only [wfNode]] at h
    simp only [Bool.and_eq_true, decide_eq_true_eq] at h
    exact ⟨h.1.2, h.2⟩
  | dir nm p cs =>
    rw [show wfNode segs (TreeNode.dir nm p cs) =
          (decide (p = canonicalPath segs) &&
            (decide (segs = [] ∧ nm = []) ||
              (decide (segs.getLast? = some nm) && decide (goodSeg nm))) &&
            wfChildren segs cs) from by simp only [wfNode]] at h
    have hmid := band_right (band_left h)
    rcases Bool.or_eq_true _ _ ▸ hmid with hl | hr
    · exact absurd (of_decide_eq_true hl).1 hne
    · simp only [Bool.and_eq_true, decide_eq_true_eq] at hr
      exact hr

/-- Segment chains of nodes present in a well-formed snapshot are made
of good segments. -/
theorem reaches_goodSegs {segs0 : List JStr} {t : TreeNode} {segs : List JStr}
    {n : TreeNode} (hwf : wfNode segs0 t = true) (hr : Reaches t segs n) :
    goodSegs segs := by
  induction hr generalizing segs0 with
  | refl t =>
    intro s hs
    exact absurd hs (by simp)
  | step hcs hmem hrest ih =>
    next t cs c segs' n =>
    have hwc : wfChildren segs0 cs = true := by
      cases t with
      | file nm pth => simp [TreeNode.children?] at hcs
      | dir nm pth cs0 =>
        have hcseq : cs0 = cs := by simpa [TreeNode.children?] using hcs
        subst hcseq
        rw [show wfNode segs0 (TreeNode.dir nm pth cs0) =
              (decide (pth = canonicalPath segs0) &&
                (decide (segs0 = [] ∧ nm = []) ||
                  (decide (segs0.getLast? = some nm) && decide (goodSeg nm))) &&
                wfChildren segs0 cs0) from by simp only [wfNode]] at hwf
        exact band_right hwf
    have hwfc := wfChildren_mem hwc hmem
    have hgood : goodSeg c.name := (wfNode_name_good hwfc (by simp)).2
    intro s hs
    rcases List.mem_cons.1 hs with rfl | hs'
    · exact hgood
    · exact ih hwfc s hs'

/-- On a snapshot with no duplicate sibling names, presence implies the
segment walk succeeds and lands on the present node. -/
theorem walkSegs_of_reaches {t : TreeNode} {segs : List JStr} {n : TreeNode}
    (hr : Reaches t segs n) : nodupNames t = true → walkSegs t segs = some n := by
  induction hr with
  | refl t =>
    intro _
    rfl
  | step hcs hmem hrest ih =>
    next t cs c segs' n =>
    intro hnd
    have hpair : (cs.map TreeNode.name).Nodup ∧ nodupNamesList cs = true := by
      cases t with
      | file nm pth => simp [TreeNode.children?] at hcs
      | dir nm pth cs0 =>
        have hcseq : cs0 = cs := by simpa [TreeNode.children?] using hcs
        subst hcseq
        rw [show nodupNames (TreeNode.dir nm pth cs0) =
              (decide ((cs0.map TreeNode.name).Nodup) && nodupNamesList cs0) from by
            simp only [nodupNames]] at hnd
        exact ⟨of_decide_eq_true (band_left hnd), band_right hnd⟩
    rw [walkSegs_cons, hcs]
    dsimp only
    rw [find?_name_of_nodup hpair.1 hmem]
    exact ih (nodupNamesList_mem hpair.2 hmem)

/-- Conversely, a successful segment walk exhibits presence. -/
theorem reaches_of_walkSegs : ∀ {segs : List JStr} {t n : TreeNode},
    walkSegs t segs = some n → Reaches t segs n
  | [], t, n, hw => by
    have h : t = n := Option.some.inj hw
    subst h
    exact Reaches.refl t
  | p :: ps, t, n, hw => by
    obtain ⟨cs, c, hcs, hf, hw'⟩ := walkSegs_cons_elim hw
    have hname : c.name = p := by simpa using List.find?_some hf
    have hstep := Reaches.step hcs (List.mem_of_find?_eq_some hf)
      (reaches_of_walkSegs hw')
    rwa [hname] at hstep

/-- C6: on a well-formed snapshot with no duplicate sibling names (the
shape `dirtree` builds), `findNode` applied to any path actually present
in the snapshot — the canonical path of a chain `Reaches` some node —
succeeds and returns that node, whose own `.path` equals `normalize` of
the path; and for EVERY input string whose walked segments reach no node
(a missing segment, or an intermediate `File` cutting the walk),
`findNode` returns `null`.  The embedding is a total pure function: no
I/O and no exception. -/
theorem findNode_path_normalize (tree : TreeNode)
    (hwf : wfNode [] tree = true) (hnd : nodupNames tree = true) :
    (∀ (segs : List JStr) (n : TreeNode), Reaches tree segs n →
      findNode tree (canonicalPath segs) = some n ∧
      n.path = normalize (canonicalPath segs)) ∧
    (∀ p : JStr, (∀ n, ¬ Reaches tree (segments (normalize p)) n) →
      findNode tree p = none) := by
  constructor
  · intro segs n hreach
    have hg : goodSegs segs := reaches_goodSegs hwf hreach
    have hwalk : walkSegs tree segs = some n := walkSegs_of_reaches hreach hnd
    constructor
    · rw [findNode_canonical tree hg]
      exact hwalk
    · have hwn := wf_walk hwf hwalk
      rw [List.nil_append] at hwn
      rw [wfNode_path hwn, normalize_canonical hg]
  · intro p hnone
    unfold findNode
    by_cases hroot : normalize p = ['/']
    · have h0 : segments (normalize p) = [] := by
        rw [hroot]
        rfl
      rw [h0] at hnone
      exact absurd (Reaches.refl tree) (hnone tree)
    · rw [if_neg hroot]
      cases hwk : walkSegs tree (segments (normalize p)) with
      | none => rfl
      | some m => exact absurd (reaches_of_walkSegs hwk) (hnone m)

theorem findNode_path_normalize_witness :
    (findNode chainTree (canonicalPath [['a']]) = some aNode ∧
      aNode.path = normalize (canonicalPath [['a']])) ∧
    findNode chainTree ['/', 'x'] = none :=
  ⟨(findNode_path_normalize chainTree (by decide) (by decide)).1 [['a']] aNode
      (@Reaches.step chainTree [aNode] aNode [] aNode rfl (by simp)
        (Reaches.refl aNode)),
    (findNode_path_normalize chainTree (by decide) (by decide)).2 ['/', 'x']
      (by
        intro n h
        have hw := walkSegs_of_reaches h (by decide)
        rw [show walkSegs chainTree (segments (normalize ['/', 'x'])) = none from by
          decide] at hw
        exact Option.noConfusion hw)⟩

/-- C8: double-clicking a file row dispatches the `open-file` event
carrying the file's (canonical) absolute path, and leaves the whole
navigation state unchanged. -/
theorem dblclick_file_emits (tree : TreeNode) (s : NavState) (col : ColId)
    (nm p : JStr) (hp : normalize p = p) :
    step tree s (.dblClick col (.file nm p)) = some (s, [.openFile p]) := by
  simp only [step, TreeNode.path]
  rw [hp]

theorem dblclick_file_emits_witness :
    step chainTree initState (.dblClick .col1 fLeaf) =
      some (initState, [.openFile ['/', 'a', '/', 'b', '/', 'c', '/', 'f']]) :=
  dblclick_file_emits chainTree initState .col1 ['f']
    ['/', 'a', '/', 'b', '/', 'c', '/', 'f'] (by decide)

/-- C9: the Open button dispatches the `opfs-file` (open-selection)
event carrying exactly `selectedPath` and changes nothing when a
(non-empty) selection exists, and is a complete no-op when
`selectedPath` is null. -/
theorem openBtn_emits (tree : TreeNode) (s : NavState) :
    (∀ p, s.selectedPath = some p → p ≠ [] →
      step tree s .openBtn = some (s, [.opfsFile p])) ∧
    (s.selectedPath = none → step tree s .openBtn = some (s, [])) := by
  constructor
  · intro p hp hne
    simp only [step, hp]
    rw [if_neg hne]
  · intro hp
    simp only [step, hp]

theorem openBtn_emits_witness :
    step chainTree { initState with selectedPath := some ['/', 'a'] } .openBtn =
      some ({ initState with selectedPath := some ['/', 'a'] }, [.opfsFile ['/', 'a']]) :=
  (openBtn_emits chainTree { initState with selectedPath := some ['/', 'a'] }).1
    ['/', 'a'] rfl (by decide)

/-- C10: when `selectedPath` is null (or empty, or normalizes to the
root `"/"`), the Up button is a complete no-op: `parentOf` returns
`null` for the root and the handler's `if (parent)` guard fires, so no
column, selection or history update happens and no event is emitted. -/
theorem upBtn_noop (tree : TreeNode) (s : NavState)
    (h : s.selectedPath = none ∨ ∃ p, s.selectedPath = some p ∧ normalize p = ['/']) :
    step tree s .upBtn = some (s, []) := by
  have hparent : parentOf (selOrRoot s) = none := by
    rcases h with h | ⟨p, hp, hnorm⟩
    · rw [show selOrRoot s = ['/'] from by simp [selOrRoot, h]]
      decide
    · by_cases hpe : p = []
      · subst hpe
        rw [show selOrRoot s = ['/'] from by simp [selOrRoot, hp]]
        decide
      · rw [show selOrRoot s = p from by simp [selOrRoot, hp, hpe]]
        unfold parentOf
        rw [if_pos hnorm]
  simp only [step, hparent]

theorem upBtn_noop_witness :
    step chainTree initState .upBtn = some (initState, []) :=
  upBtn_noop chainTree initState (Or.inl rfl)

/-- The history invariant: whenever `history` is non-empty,
`0 <= historyIndex < history.length`. -/
def histInv (s : NavState) : Prop :=
  s.history ≠ [] → 0 ≤ s.historyIndex ∧ s.historyIndex < s.history.length

instance (s : NavState) : Decidable (histInv s) := by
  unfold histInv; infer_instance

theorem pushHist_inv (s : NavState) (p : JStr) : histInv (pushHist s p) := by
  intro _
  have hh : (pushHist s p).history =
      (if s.historyIndex < (s.history.length : Int) - 1 then
        jsSlice0 s.history (s.historyIndex + 1) else s.history) ++ [p] := rfl
  have hi : (pushHist s p).historyIndex =
      (((if s.historyIndex < (s.history.length : Int) - 1 then
        jsSlice0 s.history (s.historyIndex + 1) else s.history) ++ [p]).length : Int) - 1 :=
    rfl
  rw [hh, hi]
  simp only [List.length_append, List.length_cons, List.length_nil]
  omega

theorem backStep_inv (tree : TreeNode) (s : NavState) (h : histInv s) :
    histInv (backStep tree s) := by
  unfold backStep
  split
  · exact h
  · next hgt =>
    have hh : (jumpState tree { s with historyIndex := s.historyIndex - 1 }
        ((s.history.get? (s.historyIndex - 1).toNat).getD []) false).history =
        s.history := rfl
    have hi : (jumpState tree { s with historyIndex := s.historyIndex - 1 }
        ((s.history.get? (s.historyIndex - 1).toNat).getD []) false).historyIndex =
        s.historyIndex - 1 := rfl
    intro hne
    rw [hh] at hne
    rw [hh, hi]
    obtain ⟨h1, h2⟩ := h hne
    omega

theorem jumpState_inv (tree : TreeNode) (s : NavState) (full : JStr) (push : Bool)
    (h : histInv s) : histInv (jumpState tree s full push) := by
  cases push with
  | true => exact pushHist_inv _ _
  | false => exact h

/-- C7: the invariant `0 <= historyIndex < history.length` (whenever the
history is non-empty) holds in the initial state and is preserved by
every user-action transition of the navigation state — `pushHistory`,
`back`, and each handler wired in `render()`/`renderColumn`. -/
theorem historyIndex_invariant :
    histInv initState ∧
      ∀ (tree : TreeNode) (s : NavState) (a : UAction) (s' : NavState)
        (evs : List UiEvent),
        histInv s → step tree s a = some (s', evs) → histInv s' := by
  constructor
  · intro h
    exact absurd rfl h
  · intro tree s a s' evs hs hstep
    cases a with
    | singleClick item =>
      simp only [step, Option.some.injEq, Prod.mk.injEq] at hstep
      obtain ⟨h1, -⟩ := hstep
      rw [← h1]
      exact hs
    | dblClick colId item =>
      cases item with
      | file nm p =>
        simp only [step, Option.some.injEq, Prod.mk.injEq] at hstep
        obtain ⟨h1, -⟩ := hstep
        rw [← h1]
        exact hs
      | dir nm p cs =>
        simp only [step] at hstep
        split at hstep
        · simp only [Option.some.injEq, Prod.mk.injEq] at hstep
          obtain ⟨h1, -⟩ := hstep
          rw [← h1]
          exact hs
        · split at hstep
          · exact absurd hstep (by simp)
          · simp only [Option.some.injEq, Prod.mk.injEq] at hstep
            obtain ⟨h1, -⟩ := hstep
            rw [← h1]
            exact pushHist_inv _ _
    | breadcrumbJump p =>
      simp only [step] at hstep
      split at hstep
      · exact absurd hstep (by simp)
      · simp only [Option.some.injEq, Prod.mk.injEq] at hstep
        obtain ⟨h1, -⟩ := hstep
        rw [← h1]
        exact pushHist_inv _ _
    | upBtn =>
      simp only [step] at hstep
      split at hstep
      · simp only [Option.some.injEq, Prod.mk.injEq] at hstep
        obtain ⟨h1, -⟩ := hstep
        rw [← h1]
        exact hs
      · simp only [Option.some.injEq, Prod.mk.injEq] at hstep
        obtain ⟨h1, -⟩ := hstep
        rw [← h1]
        exact jumpState_inv _ _ _ _ hs
    | backBtn =>
      simp only [step, Option.some.injEq, Prod.mk.injEq] at hstep
      obtain ⟨h1, -⟩ := hstep
      rw [← h1]
      exact backStep_inv _ _ hs
    | openBtn =>
      simp only [step] at hstep
      split at hstep
      · simp only [Option.some.injEq, Prod.mk.injEq] at hstep
        obtain ⟨h1, -⟩ := hstep
        rw [← h1]
        exact hs
      · split at hstep <;>
          (simp only [Option.some.injEq, Prod.mk.injEq] at hstep
           obtain ⟨h1, -⟩ := hstep
           rw [← h1]
           exact hs)
    | closeBtn =>
      simp only [step, Option.some.injEq, Prod.mk.injEq] at hstep
      obtain ⟨h1, -⟩ := hstep
      rw [← h1]
      exact hs
    | pathSubmit text =>
      simp only [step] at hstep
      split at hstep
      · simp only [Option.some.injEq, Prod.mk.injEq] at hstep
        obtain ⟨h1, -⟩ := hstep
        rw [← h1]
        exact hs
      · simp only [Option.some.injEq, Prod.mk.injEq] at hstep
        obtain ⟨h1, -⟩ := hstep
        rw [← h1]
        exact jumpState_inv _ _ _ _ hs

theorem historyIndex_invariant_witness : histInv initState :=
  historyIndex_invariant.2 chainTree initState .closeBtn initState
    [.closeEvt] historyIndex_invariant.1 rfl

/-! ## The sliding-window claims -/

theorem findNode_root (tree : TreeNode) : findNode tree ['/'] = some tree := by
  unfold findNode
  rw [if_pos (show normalize ['/'] = ['/'] from by decide)]

theorem parent_getD_canonical {segs : List JStr} (hg : goodSegs segs) :
    (parentOf (canonicalPath segs)).getD ['/'] = canonicalPath segs.dropLast := by
  by_cases hne : segs = []
  · subst hne
    rw [show parentOf (canonicalPath []) = none from by decide]
    rfl
  · rw [parentOf_canonical hg hne]
    rfl

theorem goodSegs_take {l : List JStr} (hg : goodSegs l) (j : Nat) :
    goodSegs (l.take j) :=
  fun s hs => hg s (List.take_subset j l hs)

/-- C3 (amended): `slideLeft` computes the full anchored window — col1 =
grandparent's children, col2 = parent's children, col3 = the path's own
children (with the root standing in for missing ancestors of shallow
paths) — and never throws when the path resolves; but this is NOT the
same as `jumpToPath`'s rule (a) (see the counterexample), which pins
col1 to the root's children for paths of at most 3 segments and builds
col2/col3 from re-rooted truncated paths for deeper ones. -/
theorem slideLeft_window (tree n : TreeNode) (segs : List JStr)
    (hg : goodSegs segs) (hw : walkSegs tree segs = some n) :
    ∃ pn gn, walkSegs tree segs.dropLast = some pn ∧
      walkSegs tree segs.dropLast.dropLast = some gn ∧
      slideLeftCols tree (canonicalPath segs) =
        some ⟨gn.childrenOrEmpty, pn.childrenOrEmpty, n.childrenOrEmpty⟩ := by
  obtain ⟨pn, hpn⟩ : ∃ pn, walkSegs tree segs.dropLast = some pn := by
    by_cases hne : segs = []
    · subst hne; exact ⟨n, hw⟩
    · exact walkSegs_dropLast hne hw
  obtain ⟨gn, hgn⟩ : ∃ gn, walkSegs tree segs.dropLast.dropLast = some gn := by
    by_cases hne : segs.dropLast = []
    · rw [hne]; rw [hne] at hpn; exact ⟨pn, hpn⟩
    · exact walkSegs_dropLast hne hpn
  refine ⟨pn, gn, hpn, hgn, ?_⟩
  unfold slideLeftCols
  rw [normalize_canonical hg, parent_getD_canonical hg,
    parent_getD_canonical (goodSegs_dropLast hg),
    findNode_canonical tree (goodSegs_dropLast (goodSegs_dropLast hg)),
    findNode_canonical tree (goodSegs_dropLast hg),
    findNode_canonical tree hg, hw, hpn, hgn]

theorem slideLeft_window_witness :
    ∃ pn gn, walkSegs chainTree [['a'], ['b'], ['c']].dropLast = some pn ∧
      walkSegs chainTree [['a'], ['b'], ['c']].dropLast.dropLast = some gn ∧
      slideLeftCols chainTree (canonicalPath [['a'], ['b'], ['c']]) =
        some ⟨gn.childrenOrEmpty, pn.childrenOrEmpty, cNode.childrenOrEmpty⟩ :=
  slideLeft_window chainTree cNode [['a'], ['b'], ['c']] (by decide) (by decide)

/-- C3, counterexample: on the chain snapshot, a col3 double-click on
the resolvable directory `/a/b/c` does NOT produce the same columns as
the depth-based jump to `/a/b/c` — `slideLeft` puts `/a`'s children
(`[b]`) in col1 while `jumpToPath` puts the root's children (`[a]`)
there. -/
theorem slideLeft_ne_jump :
    findNode chainTree ['/', 'a', '/', 'b', '/', 'c'] = some cNode ∧
    slideLeftCols chainTree ['/', 'a', '/', 'b', '/', 'c'] ≠
      some (jumpCols chainTree ['/', 'a', '/', 'b', '/', 'c']) := by
  decide

/-- C2 (amended): a col1 double-click on a directory whose parent is the
root sets col1 to the root's children, col2 to the clicked path's own
children and col3 to empty, as claimed; but when the parent is NOT the
root, `slideRight` instead sets col1 to the grandparent's children,
col2 to the PARENT's children, and col3 to the clicked path's OWN
children (not col2 = path's children / col3 = empty as claimed). -/
theorem slideRight_window (tree n : TreeNode) (segs : List JStr)
    (hg : goodSegs segs) (hw : walkSegs tree segs = some n) :
    (segs.length = 1 →
      slideRightCols tree (canonicalPath segs) =
        some ⟨tree.childrenOrEmpty, n.childrenOrEmpty, []⟩) ∧
    (2 ≤ segs.length →
      ∃ pn gn, walkSegs tree segs.dropLast = some pn ∧
        walkSegs tree segs.dropLast.dropLast = some gn ∧
        slideRightCols tree (canonicalPath segs) =
          some ⟨gn.childrenOrEmpty, pn.childrenOrEmpty, n.childrenOrEmpty⟩) := by
  constructor
  · intro hlen
    obtain ⟨x, rfl⟩ := List.length_eq_one.1 hlen
    unfold slideRightCols
    rw [normalize_canonical hg, parent_getD_canonical hg]
    rw [show ([x] : List JStr).dropLast = [] from rfl]
    rw [if_pos (show canonicalPath [] = ['/'] from rfl)]
    rw [findNode_canonical tree hg, hw]
    rw [show canonicalPath [] = ['/'] from rfl, findNode_root]
    rfl
  · intro hlen
    have hne : segs ≠ [] := by
      rintro rfl; simp at hlen
    have hdne : segs.dropLast ≠ [] := by
      intro h0
      have := congrArg List.length h0
      rw [List.length_dropLast] at this
      simp at this
      omega
    obtain ⟨pn, hpn⟩ := walkSegs_dropLast hne hw
    obtain ⟨gn, hgn⟩ : ∃ gn, walkSegs tree segs.dropLast.dropLast = some gn := by
      by_cases hdd : segs.dropLast.dropLast = []
      · rw [hdd]; exact ⟨tree, rfl⟩
      · exact walkSegs_dropLast hdne hpn
    refine ⟨pn, gn, hpn, hgn, ?_⟩
    unfold slideRightCols
    rw [normalize_canonical hg, parent_getD_canonical hg]
    rw [if_neg (fun h => hdne ((canonicalPath_eq_root (goodSegs_dropLast hg)).1 h))]
    rw [parent_getD_canonical (goodSegs_dropLast hg),
      findNode_canonical tree (goodSegs_dropLast (goodSegs_dropLast hg)),
      findNode_canonical tree (goodSegs_dropLast hg),
      findNode_canonical tree hg, hw, hpn, hgn]
    rfl

theorem slideRight_window_witness :
    slideRightCols chainTree (canonicalPath [['a']]) =
      some ⟨chainTree.childrenOrEmpty, aNode.childrenOrEmpty, []⟩ :=
  (slideRight_window chainTree aNode [['a']] (by decide) (by decide)).1 rfl

/-- C2, counterexample: double-clicking `/a/b` (a directory whose parent
`/a` is not the root) in col1 yields columns `⟨[a], [b], [c]⟩` —
grandparent's, parent's and own children — not the claimed
`⟨[a], children of /a/b, []⟩`. -/
theorem slideRight_ne_claim :
    findNode chainTree ['/', 'a', '/', 'b'] = some bNode ∧
    parentOf ['/', 'a', '/', 'b'] = some ['/', 'a'] ∧
    normalize ['/', 'a'] ≠ ['/'] ∧
    slideRightCols chainTree ['/', 'a', '/', 'b'] ≠
      some ⟨chainTree.childrenOrEmpty, bNode.childrenOrEmpty, []⟩ := by
  decide

theorem jumpVisible_short {parts : List JStr} (h : parts.length ≤ 3) :
    jumpVisible parts = parts := by
  unfold jumpVisible
  rw [if_pos h]

theorem jumpVisible_long {parts : List JStr} (h : 3 < parts.length) :
    jumpVisible parts = parts.drop (parts.length - 3) := by
  unfold jumpVisible
  rw [if_neg (by omega)]

theorem jumpParentPath_short {parts : List JStr} (h : parts.length ≤ 3) :
    jumpParentPath parts = ['/'] := by
  unfold jumpParentPath
  rw [if_neg (by omega)]

theorem jumpParentPath_long {parts : List JStr} (h : 3 < parts.length) :
    jumpParentPath parts = canonicalPath (parts.take (parts.length - 3)) := by
  unfold jumpParentPath
  rw [if_pos h]
  have hv : (jumpVisible parts).length = 3 := by
    rw [jumpVisible_long h, List.length_drop]
    omega
  rw [hv]
  rw [if_neg (by simp)]
  rfl

/-- C1 (amended): on a snapshot where the (directory) target resolves
and every directory is non-empty, `jumpToPath`'s columns are: for a
canonical target of `k <= 3` segments, exactly `k` columns non-empty,
but col1 is ALWAYS the root's children (so col(k) equals the target's
own children only for `k = 2, 3`, not for `k = 1`, where col1 shows the
listing containing the target instead); for `k > 3`, col1 shows the
children of the ancestor at depth `k - 3` and is non-empty, while col2
and col3 are looked up at paths rebuilt from the last three segments
alone (re-rooted), so they need not be populated at all. -/
theorem jumpToPath_window (tree n : TreeNode) (segs : List JStr)
    (hg : goodSegs segs) (hw : walkSegs tree segs = some n)
    (hdir : n.isDir = true) (hall : allDirsNonempty tree = true) :
    (segs.length = 1 →
      jumpCols tree (canonicalPath segs) = ⟨tree.childrenOrEmpty, [], []⟩ ∧
      tree.childrenOrEmpty ≠ []) ∧
    (segs.length = 2 →
      jumpCols tree (canonicalPath segs) =
        ⟨tree.childrenOrEmpty, n.childrenOrEmpty, []⟩ ∧
      tree.childrenOrEmpty ≠ [] ∧ n.childrenOrEmpty ≠ []) ∧
    (segs.length = 3 →
      ∃ pn, walkSegs tree (segs.take 2) = some pn ∧
        jumpCols tree (canonicalPath segs) =
          ⟨tree.childrenOrEmpty, pn.childrenOrEmpty, n.childrenOrEmpty⟩ ∧
        tree.childrenOrEmpty ≠ [] ∧ pn.childrenOrEmpty ≠ [] ∧
        n.childrenOrEmpty ≠ []) ∧
    (3 < segs.length →
      ∃ an, walkSegs tree (segs.take (segs.length - 3)) = some an ∧
        (jumpCols tree (canonicalPath segs)).col1 = an.childrenOrEmpty ∧
        an.childrenOrEmpty ≠ []) := by
  have hn_ne : n.childrenOrEmpty ≠ [] :=
    childrenOrEmpty_ne_nil_of_isDir (allDirsNonempty_walk hall hw) hdir
  refine ⟨?_, ?_, ?_, ?_⟩
  · -- k = 1
    intro hlen
    obtain ⟨x, rfl⟩ := List.length_eq_one.1 hlen
    have hroot : tree.childrenOrEmpty ≠ [] := childrenOrEmpty_ne_nil_of_walk hw
    unfold jumpCols
    rw [segments_canonical hg]
    rw [jumpVisible_short (by simp), jumpParentPath_short (by simp)]
    rw [findNode_root]
    rw [if_neg (by simp), if_neg (by simp)]
    exact ⟨rfl, hroot⟩
  · -- k = 2
    intro hlen
    have hroot : tree.childrenOrEmpty ≠ [] := by
      cases segs with
      | nil => simp at hlen
      | cons a t => exact childrenOrEmpty_ne_nil_of_walk hw
    refine ⟨?_, hroot, hn_ne⟩
    unfold jumpCols
    rw [segments_canonical hg]
    rw [jumpVisible_short (by omega), jumpParentPath_short (by omega)]
    rw [findNode_root]
    rw [if_pos (by omega), if_neg (by omega)]
    rw [List.take_of_length_le (by omega)]
    rw [show ('/' :: joinSlash segs) = canonicalPath segs from rfl]
    rw [findNode_canonical tree hg, hw]
    rfl
  · -- k = 3
    intro hlen
    obtain ⟨pn, hpn⟩ := walkSegs_take hw 2
    have hroot : tree.childrenOrEmpty ≠ [] := by
      cases segs with
      | nil => simp at hlen
      | cons a t => exact childrenOrEmpty_ne_nil_of_walk hw
    have hdrop : segs.drop 2 ≠ [] := by
      intro h0
      have hlen0 := congrArg List.length h0
      rw [List.length_drop] at hlen0
      simp at hlen0
      omega
    have hpn_ne : pn.childrenOrEmpty ≠ [] := by
      have hsplit : walkSegs tree (segs.take 2 ++ segs.drop 2) = some n := by
        rw [List.take_append_drop]
        exact hw
      rw [walkSegs_append, hpn] at hsplit
      have hsplit2 : walkSegs pn (segs.drop 2) = some n := hsplit
      cases hd : segs.drop 2 with
      | nil => exact absurd hd hdrop
      | cons d ds =>
        rw [hd] at hsplit2
        exact childrenOrEmpty_ne_nil_of_walk hsplit2
    refine ⟨pn, hpn, ?_, hroot, hpn_ne, hn_ne⟩
    unfold jumpCols
    rw [segments_canonical hg]
    rw [jumpVisible_short (by omega), jumpParentPath_short (by omega)]
    rw [findNode_root]
    rw [if_pos (by omega), if_pos (by omega)]
    rw [show segs.take 3 = segs from List.take_of_length_le (by omega)]
    rw [show ('/' :: joinSlash (segs.take 2)) = canonicalPath (segs.take 2) from rfl]
    rw [show ('/' :: joinSlash segs) = canonicalPath segs from rfl]
    rw [findNode_canonical tree (goodSegs_take hg 2), hpn]
    rw [findNode_canonical tree hg, hw]
    rfl
  · -- k > 3
    intro hlen
    obtain ⟨an, han⟩ := walkSegs_take hw (segs.length - 3)
    have hdrop : segs.drop (segs.length - 3) ≠ [] := by
      intro h0
      have hlen0 := congrArg List.length h0
      rw [List.length_drop] at hlen0
      simp at hlen0
      omega
    have han_ne : an.childrenOrEmpty ≠ [] := by
      have hsplit : walkSegs tree
          (segs.take (segs.length - 3) ++ segs.drop (segs.length - 3)) = some n := by
        rw [List.take_append_drop]
        exact hw
      rw [walkSegs_append, han] at hsplit
      have hsplit2 : walkSegs an (segs.drop (segs.length - 3)) = some n := hsplit
      cases hd : segs.drop (segs.length - 3) with
      | nil => exact absurd hd hdrop
      | cons d ds =>
        rw [hd] at hsplit2
        exact childrenOrEmpty_ne_nil_of_walk hsplit2
    refine ⟨an, han, ?_, han_ne⟩
    show optChildren (findNode tree (jumpParentPath (segments (canonicalPath segs)))) =
      an.childrenOrEmpty
    rw [segments_canonical hg, jumpParentPath_long hlen]
    rw [findNode_canonical tree (goodSegs_take hg (segs.length - 3)), han]
    rfl

theorem jumpToPath_window_witness :
    jumpCols chainTree (canonicalPath [['a'], ['b']]) =
      (⟨chainTree.childrenOrEmpty, bNode.childrenOrEmpty, []⟩ : Columns) ∧
    chainTree.childrenOrEmpty ≠ [] ∧ bNode.childrenOrEmpty ≠ [] :=
  (jumpToPath_window chainTree bNode [['a'], ['b']] (by decide) (by decide)
    (by decide) (by decide)).2.1 rfl

/-- C1, counterexample: for the 1-segment target `/a` (which resolves,
with every listed directory non-empty), the single populated column is
col1, but it holds the ROOT's children `[a]`, not the target's own
children `[b]` as the depth-jump property claims for `col(k)` at
`k = 1`. -/
theorem jump_k1_ne_claim :
    findNode chainTree ['/', 'a'] = some aNode ∧
    allDirsNonempty chainTree = true ∧
    aNode.isDir = true ∧
    (jumpCols chainTree ['/', 'a']).col2 = [] ∧
    (jumpCols chainTree ['/', 'a']).col3 = [] ∧
    (jumpCols chainTree ['/', 'a']).col1 ≠ aNode.childrenOrEmpty := by
  decide

end Sqlime
